import Mathlib

/-!
Shallow embedding of the field-normalization engine in
`src/cleaning/clean_cars_final.py`: the three per-cell parsers
(`clean_year`, `clean_mileage_range`, `clean_price`), the column-role
resolver, and the row filter of `run_cleaning`, together with theorems
settling the specification claims.

Python strings are modelled as `List Char`; `str.lower`, `str.strip`,
`str.split`, `in`, `endswith`, `re.sub(r'[^\d]', '', s)`,
`re.search(r'\d{4}', s)` and `int(...)` are given explicit executable
models below.  Digits and whitespace are modelled at the ASCII level
(all cell contents exercised by the spec are ASCII).
-/

/-- ASCII decimal digit, the model of `\d` on the data in scope. -/
def pyIsDigit (c : Char) : Bool := 48 ≤ c.toNat && c.toNat ≤ 57

/-- ASCII whitespace as stripped by Python `str.strip()`. -/
def pyIsSpace (c : Char) : Bool :=
  c.toNat == 32 || c.toNat == 9 || c.toNat == 10 ||
  c.toNat == 13 || c.toNat == 11 || c.toNat == 12

/-- ASCII lower-casing of one character, the model of `str.lower` per char. -/
def lowerChar (c : Char) : Char :=
  if 65 ≤ c.toNat ∧ c.toNat ≤ 90 then Char.ofNat (c.toNat + 32) else c

/-- Model of `str.lower()`. -/
def pyLower (s : List Char) : List Char := s.map lowerChar

/-- Model of `str.strip()`: drop whitespace at both ends. -/
def pyStrip (s : List Char) : List Char :=
  ((s.dropWhile pyIsSpace).reverse.dropWhile pyIsSpace).reverse

/-- Model of `str.split(sep)` for a one-character separator: Python's
split never returns an empty list (`"".split(',') == ['']`). -/
def pySplit (s : List Char) (sep : Char) : List (List Char) :=
  match s with
  | [] => [[]]
  | c :: rest =>
    if c = sep then [] :: pySplit rest sep
    else
      match pySplit rest sep with
      | [] => [[c]]
      | h :: t => (c :: h) :: t

/-- Model of `c in s` for a single character. -/
def containsChar (s : List Char) (c : Char) : Bool := s.any (· = c)

/-- Model of Python substring containment `needle in hay`. -/
def containsSub (hay needle : List Char) : Bool :=
  if needle.isPrefixOf hay then true
  else
    match hay with
    | [] => false
    | _ :: t => containsSub t needle

/-- Model of `s.endswith(suf)`. -/
def endsWith (s suf : List Char) : Bool := suf.isSuffixOf s

/-- Numeric value of a digit string read left to right (most significant
first), as Python `int` computes it on an all-digit string. -/
def digitsToNat (s : List Char) : Nat :=
  s.foldl (fun a c => 10 * a + (c.toNat - 48)) 0

/-- Model of Python `int(s)` on the strings this program feeds it:
an optional sign followed by at least one decimal digit parses, anything
else raises (here: `none`). -/
def pyInt (s : List Char) : Option Int :=
  match s with
  | '-' :: rest =>
    if rest ≠ [] ∧ rest.all pyIsDigit then some (-(digitsToNat rest : Int)) else none
  | '+' :: rest =>
    if rest ≠ [] ∧ rest.all pyIsDigit then some (digitsToNat rest : Int) else none
  | _ =>
    if s ≠ [] ∧ s.all pyIsDigit then some (digitsToNat s : Int) else none

/-- Decimal rendering of a natural number, the model of Python
`str` on a non-negative integer. -/
def natRepr (n : Nat) : List Char :=
  if h : n < 10 then [Char.ofNat (48 + n)]
  else natRepr (n / 10) ++ [Char.ofNat (48 + n % 10)]
  decreasing_by exact Nat.div_lt_self (by omega) (by omega)

/-- Decimal rendering of an integer, the model of Python `str` on `int`. -/
def intRepr (n : Int) : List Char :=
  if n < 0 then '-' :: natRepr n.natAbs else natRepr n.toNat

/-- One raw cell of the table: a string, an integer, a floating value
(abstracted by the text its `str()` produces), or a missing value
(pandas `NaN`, whose `str()` is `"nan"`). -/
inductive Value where
  | vstr (s : String)
  | vint (n : Int)
  | vfloat (text : String)
  | vnan
deriving DecidableEq, Repr

/-- Model of `str(val)` on a cell. -/
def pyStr : Value → List Char
  | Value.vstr s => s.toList
  | Value.vint n => intRepr n
  | Value.vfloat t => t.toList
  | Value.vnan => "nan".toList

/-- Model of `str(val).lower().strip()`, the common first step of all three
parsers. -/
def procText (v : Value) : List Char := pyStrip (pyLower (pyStr v))

/-- Model of `re.search(r'\d{4}', s)`: try each position left to right,
return the first window of four consecutive digits. -/
def searchFour (s : List Char) : Option (List Char) :=
  match s with
  | [] => none
  | _ :: rest =>
    if (s.take 4).length == 4 && (s.take 4).all pyIsDigit then some (s.take 4)
    else searchFour rest

/-- Embedding of `clean_year` (src/cleaning/clean_cars_final.py, lines 9-14):
lower-case and trim, search for `\d{4}`, and return the matched group as
an integer, else `None`. -/
def clean_year (v : Value) : Option Int :=
  match searchFour (procText v) with
  | some ds => some (digitsToNat ds : Int)
  | none => none

/-- Embedding of `clean_mileage_range` (lines 16-22): lower-case and trim, keep the
part before the first `-` when `-` occurs, strip non-digits, `int(...)`
with any failure absorbed into `0`. -/
def clean_mileage_range (v : Value) : Int :=
  let s := procText v
  let s1 := if containsChar s '-' then (pySplit s '-').headD [] else s
  match pyInt (s1.filter pyIsDigit) with
  | some n => n
  | none => 0

/-- Embedding of `clean_price` (lines 24-45): lower-case and trim; drop a trailing
`.0` (two chars) else a trailing `.00` (three chars); else when a comma
occurs and the part after the last comma has length 2, keep the part
before the FIRST comma (`s.split(',')[0]`); strip non-digits; `int(...)`
with failure absorbed into `None`. -/
def clean_price (v : Value) : Option Int :=
  let s := procText v
  let s1 :=
    if endsWith s ['.', '0'] then s.take (s.length - 2)
    else if endsWith s ['.', '0', '0'] then s.take (s.length - 3)
    else if containsChar s ',' && ((pySplit s ',').getLastD []).length == 2 then
      (pySplit s ',').headD []
    else s
  pyInt (s1.filter pyIsDigit)

/-! ## The table pipeline of `run_cleaning` (lines 47-87)

A table is an ordered list of column names plus rows of cells aligned
with the columns by position.  Reading the file, printing and writing
the output are external; the embedded `run_cleaning` is the in-memory
transform between them.  A failed column lookup (pandas `KeyError`,
possible through the literal-name fallback) is modelled by `none`. -/

structure Table where
  cols : List String
  rows : List (List Value)
deriving DecidableEq, Repr

/-- Index of the first column with the given name. -/
def colIdx : List String → String → Option Nat
  | [], _ => none
  | c :: rest, x => if c = x then some 0 else (colIdx rest x).map (· + 1)

/-- Cell of a row at a column index (missing cells read as `NaN`). -/
def getCell (i : Nat) (r : List Value) : Value :=
  match i, r with
  | _, [] => Value.vnan
  | 0, v :: _ => v
  | n + 1, _ :: rest => getCell n rest

/-- Replace the cell at a column index by the image under `f`
(out-of-range indices leave the row unchanged). -/
def updateAt (f : Value → Value) : Nat → List Value → List Value
  | _, [] => []
  | 0, v :: rest => f v :: rest
  | n + 1, v :: rest => v :: updateAt f n rest

/-- Is the cell a missing value, as `dropna` sees it. -/
def isNA : Value → Bool
  | Value.vnan => true
  | _ => false

/-- Store an optional parser result back into a cell: `None` becomes a
missing value, which `dropna` later removes. -/
def optToVal : Option Int → Value
  | some n => Value.vint n
  | none => Value.vnan

/-- The columns dropped up front: `['Sector', 'Location', 'sector',
'location']` (line 56). -/
def dropNames : List String := ["Sector", "Location", "sector", "location"]

/-- Row projection matching the column drop: keep the cells whose
column is not dropped, positionally. -/
def dropColsRow : List String → List Value → List Value
  | [], _ => []
  | _ :: _, [] => []
  | c :: cs, v :: vs =>
    if dropNames.contains c then dropColsRow cs vs else v :: dropColsRow cs vs

/-- Model of `df.drop(columns=[c for c in drop_cols if c in df.columns])`. -/
def dropCols (t : Table) : Table :=
  ⟨t.cols.filter (fun c => !(dropNames.contains c)),
   t.rows.map (dropColsRow t.cols)⟩

/-- Does a column name fulfil a role: its lower-cased text contains one
of the role's synonym substrings (e.g. `'price' in c.lower()`). -/
def matchesRole (syns : List String) (c : String) : Bool :=
  syns.any (fun syn => containsSub (pyLower c.toList) syn.toList)

/-- Model of `next((c for c in df.columns if ...), fallback)`: the first column
matching the role, else the literal fallback name. -/
def findCol (cols : List String) (syns : List String) (fb : String) : String :=
  (cols.find? (matchesRole syns)).getD fb

/-- The range filter on the normalized price cell (line 77):
`(df[price_col] > 5000) & (df[price_col] < 3000000)`. -/
def priceInRange : Value → Bool
  | Value.vint n => decide (5000 < n) && decide (n < 3000000)
  | _ => false

/-- The rename map of line 80-83 as a function on column names.  The
Python `dict` literal keeps the LAST value for a duplicated key, so the
six entries are tested here in reverse literal order. -/
def renameFn (price_col mileage_col year_col : String) (c : String) : String :=
  if c = "Fuel" then "fuel_type"
  else if c = "Model" then "model"
  else if c = "Brand" then "brand"
  else if c = year_col then "year"
  else if c = mileage_col then "mileage_km"
  else if c = price_col then "price"
  else c

/-- Embedding of `run_cleaning` (lines 47-87) without the file I/O around it: drop
the useless columns, normalize and filter price, normalize mileage,
normalize year and drop unparsed years, rename.  `none` models the
`KeyError` raised when a bound column name is absent. -/
def run_cleaning (t : Table) : Option Table :=
  let t1 := dropCols t
  let price_col := findCol t1.cols ["price", "prix"] "Price"
  match colIdx t1.cols price_col with
  | none => none
  | some ip =>
    let t2 : Table := ⟨t1.cols, t1.rows.map (updateAt (fun v => optToVal (clean_price v)) ip)⟩
    let t3 : Table := ⟨t2.cols, t2.rows.filter (fun r => !isNA (getCell ip r))⟩
    let t4 : Table := ⟨t3.cols, t3.rows.filter (fun r => priceInRange (getCell ip r))⟩
    let mileage_col := findCol t4.cols ["mileage", "km"] "Mileage"
    match colIdx t4.cols mileage_col with
    | none => none
    | some im =>
      let t5 : Table := ⟨t4.cols, t4.rows.map (updateAt (fun v => Value.vint (clean_mileage_range v)) im)⟩
      let year_col := findCol t5.cols ["year", "annee"] "Year"
      match colIdx t5.cols year_col with
      | none => none
      | some iy =>
        let t6 : Table := ⟨t5.cols, t5.rows.map (updateAt (fun v => optToVal (clean_year v)) iy)⟩
        let t7 : Table := ⟨t6.cols, t6.rows.filter (fun r => !isNA (getCell iy r))⟩
        some ⟨t7.cols.map (renameFn price_col mileage_col year_col), t7.rows⟩

/-- Retention predicate implied by the pipeline for a row of the table
after the column drop: the normalized price parses to a value strictly
between the two bounds, and the normalized year parses.  The mileage
cell and the magnitude of the year play no part. -/
def keepRow (ip iy : Nat) (r : List Value) : Bool :=
  (match clean_price (getCell ip r) with
   | some p => decide (5000 < p) && decide (p < 3000000)
   | none => false) && (clean_year (getCell iy r)).isSome

/-- Cell-wise normalization applied by the pipeline to a retained row:
price, then mileage, then year. -/
def transRow (ip im iy : Nat) (r : List Value) : List Value :=
  updateAt (fun v => optToVal (clean_year v)) iy
    (updateAt (fun v => Value.vint (clean_mileage_range v)) im
      (updateAt (fun v => optToVal (clean_price v)) ip r))

/-- First-match specification of the column-role resolver: either the
columns decompose around a first matching column which is returned, or
no column matches and the literal fallback is returned. -/
def RoleSpec (cols syns : List String) (fb : String) : Prop :=
  (∃ pre c post, cols = pre ++ c :: post ∧ matchesRole syns c = true ∧
    (∀ c' ∈ pre, matchesRole syns c' = false) ∧ findCol cols syns fb = c) ∨
  ((∀ c ∈ cols, matchesRole syns c = false) ∧ findCol cols syns fb = fb)

/-! ## Spec-side definitions

These follow the wording of the specification claims, with primitives
independent of the Python-modelling ones above, so that agreement with
the embedded code is a theorem and disagreement a counterexample. -/

/-- The maximal digit runs of a string, in order: `"12a345"` has runs
`["12", "345"]`. -/
def digitRuns : List Char → List (List Char)
  | [] => []
  | c :: rest =>
    let rs := digitRuns rest
    if pyIsDigit c then
      match rest, rs with
      | d :: _, r :: rs' => if pyIsDigit d then (c :: r) :: rs' else [c] :: rs
      | _, _ => [c] :: rs
    else rs

/-- The year algorithm as the claim words it: the first maximal
contiguous run of EXACTLY four decimal digits, else null. -/
def specYearRuns (v : Value) : Option Int :=
  match (digitRuns (procText v)).find? (fun r => r.length == 4) with
  | some r => some (digitsToNat r : Int)
  | none => none

/-- Four consecutive digits start at position `i` of `s`. -/
def fourAt (s : List Char) (i : Nat) : Bool :=
  ((s.drop i).take 4).length == 4 && ((s.drop i).take 4).all pyIsDigit

/-- The text strictly before the first occurrence of `sep`. -/
def beforeFirst (s : List Char) (sep : Char) : List Char :=
  s.takeWhile (· ≠ sep)

/-- The text strictly after the last occurrence of `sep` (the whole
string when `sep` does not occur). -/
def afterLast (s : List Char) (sep : Char) : List Char :=
  (s.reverse.takeWhile (· ≠ sep)).reverse

/-- The text strictly before the last occurrence of `sep`. -/
def beforeLast (s : List Char) (sep : Char) : List Char :=
  ((s.reverse.dropWhile (· ≠ sep)).drop 1).reverse

/-- The price algorithm exactly as the claim words it, step by step:
trailing `.0` / `.00` dropped; else if a comma occurs and the text
after the FINAL comma has exactly two characters, keep the text before
that FINAL comma; strip non-digits; parse or null. -/
def specPriceFinalComma (v : Value) : Option Int :=
  let s := procText v
  let s1 :=
    if endsWith s ['.', '0'] then s.take (s.length - 2)
    else if endsWith s ['.', '0', '0'] then s.take (s.length - 3)
    else if containsChar s ',' && (afterLast s ',').length == 2 then beforeLast s ','
    else s
  pyInt (s1.filter pyIsDigit)

/-- The amended price algorithm: as `specPriceFinalComma` but keeping
the text before the FIRST comma, which is what `s.split(',')[0]` does. -/
def claimPriceFirstComma (v : Value) : Option Int :=
  let s := procText v
  let s1 :=
    if endsWith s ['.', '0'] then s.take (s.length - 2)
    else if endsWith s ['.', '0', '0'] then s.take (s.length - 3)
    else if containsChar s ',' && (afterLast s ',').length == 2 then beforeFirst s ','
    else s
  pyInt (s1.filter pyIsDigit)

/-- The mileage algorithm as the claim words it: lower-cased trimmed
text, the part before the first `-` when `-` occurs, non-digits
stripped, digits parsed, `0` when nothing parses. -/
def claimMileage (v : Value) : Int :=
  let s := procText v
  let s1 := if containsChar s '-' then beforeFirst s '-' else s
  match pyInt (s1.filter pyIsDigit) with
  | some n => n
  | none => 0

/-! ## Helper lemmas: splitting and scanning -/

theorem takeWhile_append_last {α : Type} {p : α → Bool} {x : α} (hx : p x = false)
    (l : List α) : (l ++ [x]).takeWhile p = l.takeWhile p := by
  induction l with
  | nil => simp [List.takeWhile_cons, hx]
  | cons a t ih =>
    by_cases h : p a = true
    · simp [List.takeWhile_cons, h, ih]
    · simp only [Bool.not_eq_true] at h
      simp [List.takeWhile_cons, h]

theorem takeWhile_append_of_mem {α : Type} {p : α → Bool} {l : List α} (l₂ : List α)
    (h : ∃ x ∈ l, p x = false) : (l ++ l₂).takeWhile p = l.takeWhile p := by
  induction l with
  | nil =>
    rcases h with ⟨x, hx, _⟩
    exact absurd hx (List.not_mem_nil x)
  | cons a t ih =>
    by_cases ha : p a = true
    · rcases h with ⟨x, hx, hpx⟩
      rcases List.mem_cons.mp hx with rfl | hxt
      · exact absurd ha (by simp [hpx])
      · simp [List.takeWhile_cons, ha, ih ⟨x, hxt, hpx⟩]
    · simp only [Bool.not_eq_true] at ha
      simp [List.takeWhile_cons, ha]

theorem takeWhile_all {α : Type} {p : α → Bool} {l : List α}
    (h : ∀ x ∈ l, p x = true) : l.takeWhile p = l :=
  List.takeWhile_eq_self_iff.mpr h

theorem pySplit_ne_nil (s : List Char) (sep : Char) : pySplit s sep ≠ [] := by
  cases s with
  | nil => simp [pySplit]
  | cons c rest =>
    simp only [pySplit]
    split
    · simp
    · split <;> simp

theorem headD_pySplit (s : List Char) (sep : Char) :
    (pySplit s sep).headD [] = s.takeWhile (· ≠ sep) := by
  induction s with
  | nil => rfl
  | cons c rest ih =>
    by_cases hc : c = sep
    · subst hc
      simp [pySplit, List.takeWhile_cons]
    · simp only [pySplit, if_neg hc]
      cases h : pySplit rest sep with
      | nil => exact absurd h (pySplit_ne_nil rest sep)
      | cons h0 t =>
        rw [h] at ih
        simp only [List.headD_cons] at ih
        simp only [List.headD_cons, List.takeWhile_cons, ne_eq, hc, not_false_eq_true]
        simp only [ne_eq, decide_not] at ih ⊢
        rw [ih]
        simp

theorem getLastD_indep {α : Type} {t : List α} (h : t ≠ []) (d d' : α) :
    t.getLastD d = t.getLastD d' := by
  cases t with
  | nil => exact absurd rfl h
  | cons a l => rw [List.getLastD_cons, List.getLastD_cons]

theorem containsChar_cons (c a : Char) (rest : List Char) :
    containsChar (a :: rest) c = (a = c || containsChar rest c) := by
  simp [containsChar, List.any_cons]

theorem not_mem_of_containsChar_false {s : List Char} {sep : Char}
    (h : containsChar s sep = false) : ∀ x ∈ s, x ≠ sep := by
  intro x hx hxe
  subst hxe
  simp [containsChar, List.any_eq_true] at h
  exact h x hx rfl

theorem pySplit_no_sep {s : List Char} {sep : Char}
    (h : containsChar s sep = false) : pySplit s sep = [s] := by
  induction s with
  | nil => rfl
  | cons c rest ih =>
    rw [containsChar_cons] at h
    simp only [Bool.or_eq_false_iff, decide_eq_false_iff_not] at h
    simp only [pySplit, if_neg h.1, ih h.2]

theorem pySplit_len2 {s : List Char} {sep : Char}
    (h : containsChar s sep = true) : 2 ≤ (pySplit s sep).length := by
  induction s with
  | nil => simp [containsChar] at h
  | cons c rest ih =>
    by_cases hc : c = sep
    · subst hc
      simp only [pySplit, if_pos rfl, ite_true, List.length_cons]
      have := pySplit_ne_nil rest c
      have : 1 ≤ (pySplit rest c).length := List.length_pos.mpr this
      omega
    · rw [containsChar_cons] at h
      simp only [Bool.or_eq_true, decide_eq_true_eq] at h
      rcases h with h | h
      · exact absurd h hc
      · have h2 := ih h
        simp only [pySplit, if_neg hc]
        cases hps : pySplit rest sep with
        | nil => exact absurd hps (pySplit_ne_nil rest sep)
        | cons h0 t =>
          rw [hps] at h2
          simp only [List.length_cons] at h2 ⊢
          omega

theorem getLastD_pySplit (s : List Char) (sep : Char) :
    (pySplit s sep).getLastD [] = (s.reverse.takeWhile (· ≠ sep)).reverse := by
  induction s with
  | nil => rfl
  | cons c rest ih =>
    by_cases hc : c = sep
    · subst hc
      simp only [pySplit, if_pos rfl, ite_true, List.getLastD_cons, List.reverse_cons]
      rw [takeWhile_append_last (by simp)]
      simpa using ih
    · cases hmem : containsChar rest sep with
      | false =>
        have hall : ∀ x ∈ (c :: rest).reverse, (x ≠ sep : Bool) = true := by
          intro x hx
          rw [List.mem_reverse] at hx
          rcases List.mem_cons.mp hx with rfl | hxr
          · simp [hc]
          · simp [not_mem_of_containsChar_false hmem x hxr]
        rw [pySplit_no_sep (by rw [containsChar_cons]; simp [hc, hmem])]
        rw [takeWhile_all hall, List.reverse_reverse]
        rfl
      | true =>
        have h2 := pySplit_len2 hmem
        simp only [pySplit, if_neg hc]
        cases hps : pySplit rest sep with
        | nil => exact absurd hps (pySplit_ne_nil rest sep)
        | cons h0 t =>
          rw [hps] at h2 ih
          simp only [List.length_cons] at h2
          have ht : t ≠ [] := by
            intro h
            subst h
            simp at h2
          simp only [List.getLastD_cons] at ih ⊢
          rw [getLastD_indep ht (c :: h0) h0, ih, List.reverse_cons]
          have : ∃ x ∈ rest.reverse, (x ≠ sep : Bool) = false := by
            simp only [containsChar, List.any_eq_true, decide_eq_true_eq] at hmem
            rcases hmem with ⟨x, hx, rfl⟩
            exact ⟨x, List.mem_reverse.mpr hx, by simp⟩
          rw [takeWhile_append_of_mem [c] this]

/-! ## Helper lemmas: `int(...)` and digit strings -/

theorem pyInt_nonneg_of_digits {l : List Char} (h : ∀ c ∈ l, pyIsDigit c = true)
    {n : Int} (hn : pyInt l = some n) : 0 ≤ n := by
  cases l with
  | nil => simp [pyInt] at hn
  | cons c t =>
    have hc := h c (List.mem_cons_self c t)
    unfold pyInt at hn
    split at hn
    · rename_i rest heq
      rw [List.cons.injEq] at heq
      rw [heq.1] at hc
      exact absurd hc (by decide)
    · rename_i rest heq
      rw [List.cons.injEq] at heq
      rw [heq.1] at hc
      exact absurd hc (by decide)
    · split at hn
      · rw [Option.some.injEq] at hn
        rw [← hn]
        exact Int.natCast_nonneg _
      · exact absurd hn (by simp)

theorem pyInt_digits {l : List Char} (h : ∀ c ∈ l, pyIsDigit c = true)
    (hne : l ≠ []) : pyInt l = some (digitsToNat l : Int) := by
  cases l with
  | nil => exact absurd rfl hne
  | cons c t =>
    have hc := h c (List.mem_cons_self c t)
    unfold pyInt
    split
    · rename_i rest heq
      rw [List.cons.injEq] at heq
      rw [heq.1] at hc
      exact absurd hc (by decide)
    · rename_i rest heq
      rw [List.cons.injEq] at heq
      rw [heq.1] at hc
      exact absurd hc (by decide)
    · rw [if_pos ⟨by simp, List.all_eq_true.mpr (by simpa using h)⟩]

theorem lowerChar_digit {c : Char} (h : pyIsDigit c = true) : lowerChar c = c := by
  simp only [pyIsDigit, Bool.and_eq_true, decide_eq_true_eq] at h
  unfold lowerChar
  rw [if_neg (by omega)]

theorem pyLower_digits {s : List Char} (h : ∀ c ∈ s, pyIsDigit c = true) :
    pyLower s = s := by
  induction s with
  | nil => rfl
  | cons c t ih =>
    simp only [pyLower, List.map_cons]
    rw [lowerChar_digit (h c (List.mem_cons_self c t))]
    have := ih (fun x hx => h x (List.mem_cons_of_mem c hx))
    simp only [pyLower] at this
    rw [this]

theorem dropWhile_all_neg {α : Type} {p : α → Bool} {l : List α}
    (h : ∀ x ∈ l, p x = false) : l.dropWhile p = l := by
  cases l with
  | nil => rfl
  | cons a t =>
    rw [List.dropWhile_cons, if_neg]
    simp [h a (List.mem_cons_self a t)]

theorem digit_not_space {c : Char} (h : pyIsDigit c = true) : pyIsSpace c = false := by
  simp only [pyIsDigit, Bool.and_eq_true, decide_eq_true_eq] at h
  simp only [pyIsSpace, Bool.or_eq_false_iff, beq_eq_false_iff_ne, ne_eq]
  omega

theorem pyStrip_digits {s : List Char} (h : ∀ c ∈ s, pyIsDigit c = true) :
    pyStrip s = s := by
  have hsp : ∀ x ∈ s, pyIsSpace x = false := fun x hx => digit_not_space (h x hx)
  unfold pyStrip
  rw [dropWhile_all_neg hsp,
    dropWhile_all_neg (fun x hx => hsp x (List.mem_reverse.mp hx)),
    List.reverse_reverse]

theorem endsWith_false_of_digits {s : List Char} (h : ∀ c ∈ s, pyIsDigit c = true)
    {suf : List Char} (c0 : Char) (hc0 : c0 ∈ suf) (hc0d : pyIsDigit c0 = false) :
    endsWith s suf = false := by
  cases hE : endsWith s suf with
  | false => rfl
  | true =>
    unfold endsWith at hE
    have hsuf : suf <:+ s := List.isSuffixOf_iff_suffix.mp (by simp [hE])
    have : c0 ∈ s := hsuf.mem hc0
    rw [h c0 this] at hc0d
    cases hc0d

theorem containsChar_false_of_digits {s : List Char} (h : ∀ c ∈ s, pyIsDigit c = true)
    {c0 : Char} (hc0d : pyIsDigit c0 = false) : containsChar s c0 = false := by
  cases hE : containsChar s c0 with
  | false => rfl
  | true =>
    simp only [containsChar, List.any_eq_true, decide_eq_true_eq] at hE
    rcases hE with ⟨x, hx, rfl⟩
    rw [h x hx] at hc0d
    cases hc0d

theorem char48_toNat {d : Nat} (hd : d < 10) : (Char.ofNat (48 + d)).toNat = 48 + d := by
  interval_cases d <;> decide

theorem char48_digit {d : Nat} (hd : d < 10) : pyIsDigit (Char.ofNat (48 + d)) = true := by
  interval_cases d <;> decide

theorem natRepr_all_digit (n : Nat) : ∀ c ∈ natRepr n, pyIsDigit c = true := by
  induction n using Nat.strong_induction_on with
  | _ n ih =>
    rw [natRepr]
    split
    · intro c hc
      rw [List.mem_singleton] at hc
      subst hc
      exact char48_digit (by omega)
    · intro c hc
      rw [List.mem_append] at hc
      rcases hc with hc | hc
      · exact ih (n / 10) (Nat.div_lt_self (by omega) (by omega)) c hc
      · rw [List.mem_singleton] at hc
        subst hc
        exact char48_digit (Nat.mod_lt _ (by omega))

theorem natRepr_ne_nil (n : Nat) : natRepr n ≠ [] := by
  rw [natRepr]
  split <;> simp

theorem digitsToNat_natRepr (n : Nat) : digitsToNat (natRepr n) = n := by
  induction n using Nat.strong_induction_on with
  | _ n ih =>
    rw [natRepr]
    split
    · rename_i h10
      simp only [digitsToNat, List.foldl_cons, List.foldl_nil]
      rw [char48_toNat h10]
      omega
    · rename_i h10
      have happ : digitsToNat (natRepr (n / 10) ++ [Char.ofNat (48 + n % 10)]) =
          10 * digitsToNat (natRepr (n / 10)) + ((Char.ofNat (48 + n % 10)).toNat - 48) := by
        simp [digitsToNat, List.foldl_append, List.foldl_cons, List.foldl_nil]
      rw [happ, ih (n / 10) (Nat.div_lt_self (by omega) (by omega)),
        char48_toNat (Nat.mod_lt _ (by omega))]
      omega

/-! ## Helper lemmas: table operations -/

theorem updateAt_length (f : Value → Value) (i : Nat) (r : List Value) :
    (updateAt f i r).length = r.length := by
  induction r generalizing i with
  | nil => cases i <;> rfl
  | cons v rest ih =>
    cases i with
    | zero => rfl
    | succ n => simp [updateAt, ih]

theorem getCell_updateAt_self (f : Value → Value) {i : Nat} {r : List Value}
    (h : i < r.length) : getCell i (updateAt f i r) = f (getCell i r) := by
  induction r generalizing i with
  | nil => simp at h
  | cons v rest ih =>
    cases i with
    | zero => rfl
    | succ n =>
      simp only [updateAt, getCell]
      exact ih (by simpa using h)

theorem getCell_updateAt_ne (f : Value → Value) {i j : Nat} (r : List Value)
    (h : i ≠ j) : getCell i (updateAt f j r) = getCell i r := by
  induction r generalizing i j with
  | nil => cases i <;> cases j <;> rfl
  | cons v rest ih =>
    cases j with
    | zero =>
      cases i with
      | zero => exact absurd rfl h
      | succ n => rfl
    | succ m =>
      cases i with
      | zero => rfl
      | succ n =>
        simp only [updateAt, getCell]
        exact ih (by omega)

theorem colIdx_lt_length {cols : List String} {x : String} {i : Nat}
    (h : colIdx cols x = some i) : i < cols.length := by
  induction cols generalizing i with
  | nil => simp [colIdx] at h
  | cons c rest ih =>
    by_cases hc : c = x
    · rw [colIdx, if_pos hc] at h
      cases h
      simp
    · rw [colIdx, if_neg hc] at h
      cases hrec : colIdx rest x with
      | none =>
        rw [hrec] at h
        cases h
      | some j =>
        rw [hrec] at h
        simp only [Option.map_some'] at h
        cases h
        have := ih hrec
        simp only [List.length_cons]
        omega

theorem dropColsRow_length {cols : List String} {r : List Value}
    (h : r.length = cols.length) :
    (dropColsRow cols r).length = (cols.filter (fun c => !(dropNames.contains c))).length := by
  induction cols generalizing r with
  | nil => cases r <;> simp_all [dropColsRow]
  | cons c rest ih =>
    cases r with
    | nil => simp at h
    | cons v rv =>
      simp only [List.length_cons] at h
      have hrec := ih (r := rv) (by omega)
      cases hc : dropNames.contains c with
      | true =>
        have hm : c ∈ dropNames := by simpa using hc
        simp [dropColsRow, hc, hm, List.filter_cons, hrec]
      | false =>
        have hm : c ∉ dropNames := by simpa using hc
        simp [dropColsRow, hc, hm, List.filter_cons, hrec]

theorem pipeline_rows (ip im iy : Nat) (hyp : iy ≠ ip) (hym : iy ≠ im)
    (rows : List (List Value))
    (h : ∀ r ∈ rows, ip < r.length ∧ iy < r.length) :
    List.filter (fun r => !isNA (getCell iy r))
      (List.map (updateAt (fun v => optToVal (clean_year v)) iy)
        (List.map (updateAt (fun v => Value.vint (clean_mileage_range v)) im)
          (List.filter (fun r => priceInRange (getCell ip r))
            (List.filter (fun r => !isNA (getCell ip r))
              (List.map (updateAt (fun v => optToVal (clean_price v)) ip) rows))))) =
    (rows.filter (keepRow ip iy)).map (transRow ip im iy) := by
  induction rows with
  | nil => rfl
  | cons r rs ih =>
    have hr := h r (List.mem_cons_self r rs)
    have ihr := ih (fun x hx => h x (List.mem_cons_of_mem r hx))
    have e1 : getCell ip (updateAt (fun v => optToVal (clean_price v)) ip r) =
        optToVal (clean_price (getCell ip r)) :=
      getCell_updateAt_self _ hr.1
    have e2 : getCell iy
        (updateAt (fun v => optToVal (clean_year v)) iy
          (updateAt (fun v => Value.vint (clean_mileage_range v)) im
            (updateAt (fun v => optToVal (clean_price v)) ip r))) =
        optToVal (clean_year (getCell iy r)) := by
      rw [getCell_updateAt_self _
        (by rw [updateAt_length, updateAt_length]; exact hr.2)]
      rw [getCell_updateAt_ne _ _ hym, getCell_updateAt_ne _ _ hyp]
    cases hP : clean_price (getCell ip r) with
    | none =>
      rw [List.map_cons,
        List.filter_cons_of_neg (by simp only [e1, hP]; decide),
        List.filter_cons_of_neg (by simp [keepRow, hP])]
      exact ihr
    | some p =>
      by_cases hB : (decide (5000 < p) && decide (p < 3000000)) = true
      · cases hY : clean_year (getCell iy r) with
        | none =>
          rw [List.map_cons,
            List.filter_cons_of_pos (by simp only [e1, hP]; rfl),
            List.filter_cons_of_pos (by simp only [e1, hP]; exact hB),
            List.map_cons, List.map_cons,
            List.filter_cons_of_neg (by simp only [e2, hY]; decide),
            List.filter_cons_of_neg (by simp [keepRow, hP, hY])]
          exact ihr
        | some y =>
          rw [List.map_cons,
            List.filter_cons_of_pos (by simp only [e1, hP]; rfl),
            List.filter_cons_of_pos (by simp only [e1, hP]; exact hB),
            List.map_cons, List.map_cons,
            List.filter_cons_of_pos (by simp only [e2, hY]; rfl),
            List.filter_cons_of_pos (by simp [keepRow, hP, hY, hB]),
            List.map_cons, ihr]
          rfl
      · rw [List.map_cons,
          List.filter_cons_of_pos (by simp only [e1, hP]; rfl),
          List.filter_cons_of_neg (by
            simp only [e1, hP]
            exact hB),
          List.filter_cons_of_neg (by
            simp only [keepRow, hP]
            intro hcon
            rw [Bool.and_eq_true] at hcon
            exact hB hcon.1)]
        exact ihr

theorem run_cleaning_eq (t : Table) (pc mc yc : String) (ip im iy : Nat)
    (hpc : pc = findCol (dropCols t).cols ["price", "prix"] "Price")
    (hmc : mc = findCol (dropCols t).cols ["mileage", "km"] "Mileage")
    (hyc : yc = findCol (dropCols t).cols ["year", "annee"] "Year")
    (hip : colIdx (dropCols t).cols pc = some ip)
    (him : colIdx (dropCols t).cols mc = some im)
    (hiy : colIdx (dropCols t).cols yc = some iy)
    (hyp : iy ≠ ip) (hym : iy ≠ im)
    (halign : ∀ r ∈ t.rows, r.length = t.cols.length) :
    run_cleaning t = some ⟨(dropCols t).cols.map (renameFn pc mc yc),
      ((dropCols t).rows.filter (keepRow ip iy)).map (transRow ip im iy)⟩ := by
  subst hpc hmc hyc
  have hlen1 : ∀ r1 ∈ (dropCols t).rows, r1.length = (dropCols t).cols.length := by
    intro r1 hr1
    simp only [dropCols, List.mem_map] at hr1
    rcases hr1 with ⟨r, hr, rfl⟩
    exact dropColsRow_length (halign r hr)
  have hipl := colIdx_lt_length hip
  have hiyl := colIdx_lt_length hiy
  simp only [run_cleaning, hip, him, hiy]
  refine congrArg some ?_
  rw [Table.mk.injEq]
  refine ⟨rfl, ?_⟩
  exact pipeline_rows ip im iy hyp hym (dropCols t).rows
    (fun r hr => ⟨by rw [hlen1 r hr]; exact hipl, by rw [hlen1 r hr]; exact hiyl⟩)

theorem findCol_spec (cols syns : List String) (fb : String) : RoleSpec cols syns fb := by
  induction cols with
  | nil =>
    right
    exact ⟨fun c hc => absurd hc (List.not_mem_nil c), rfl⟩
  | cons c rest ih =>
    by_cases hc : matchesRole syns c = true
    · left
      refine ⟨[], c, rest, rfl, hc, fun c' hc' => absurd hc' (List.not_mem_nil c'), ?_⟩
      simp [findCol, List.find?_cons_of_pos _ hc]
    · have hcf : matchesRole syns c = false := by simpa using hc
      rcases ih with ⟨pre, x, post, heq, hx, hpre, hfind⟩ | ⟨hall, hfb⟩
      · left
        refine ⟨c :: pre, x, post, by rw [heq, List.cons_append], hx, ?_, ?_⟩
        · intro c' hc'
          rcases List.mem_cons.mp hc' with rfl | hc'
          · exact hcf
          · exact hpre c' hc'
        · simpa [findCol, List.find?_cons_of_neg _ hc] using hfind
      · right
        refine ⟨?_, ?_⟩
        · intro c' hc'
          rcases List.mem_cons.mp hc' with rfl | hc'
          · exact hcf
          · exact hall c' hc'
        · simpa [findCol, List.find?_cons_of_neg _ hc] using hfb

/-- C6: for every ordered list of column names, each of the roles
Price, Mileage and Year is bound to the first column whose lower-cased
name contains one of the role's synonym substrings
('price'/'prix', 'mileage'/'km', 'year'/'annee'); when no column
matches, the role is bound to the literal fallback name, so resolution
never fails. -/
theorem C6_role_resolution (cols : List String) :
    RoleSpec cols ["price", "prix"] "Price" ∧
    RoleSpec cols ["mileage", "km"] "Mileage" ∧
    RoleSpec cols ["year", "annee"] "Year" :=
  ⟨findCol_spec cols ["price", "prix"] "Price",
   findCol_spec cols ["mileage", "km"] "Mileage",
   findCol_spec cols ["year", "annee"] "Year"⟩

theorem clean_mileage_range_nonneg (v : Value) : 0 ≤ clean_mileage_range v := by
  simp only [clean_mileage_range]
  cases hI : pyInt ((if containsChar (procText v) '-' then
      (pySplit (procText v) '-').headD [] else procText v).filter pyIsDigit) with
  | none => simp [hI]
  | some n =>
    simp only [hI]
    exact pyInt_nonneg_of_digits (fun c hc => (List.mem_filter.mp hc).2) hI

/-- C1 counterexample: on `"1,234,00"` the parser keeps the text before
the FIRST comma (`"1"`, giving 1), while the claimed algorithm keeps the
text before the FINAL comma (`"1,234"`, giving 1234). -/
theorem C1_counterexample :
    clean_price (Value.vstr "1,234,00") = some 1 ∧
    specPriceFinalComma (Value.vstr "1,234,00") = some 1234 ∧
    clean_price (Value.vstr "1,234,00") ≠ specPriceFinalComma (Value.vstr "1,234,00") := by
  decide

/-- C1 (amended): the price parser follows the claimed ordered
algorithm with "before the final comma" replaced by "before the first
comma", and satisfies all five claimed examples. -/
theorem C1_price_algorithm (v : Value) :
    clean_price v = claimPriceFirstComma v ∧
    clean_price (Value.vstr "80 000 DH") = some 80000 ∧
    clean_price (Value.vstr "80000.0") = some 80000 ∧
    clean_price (Value.vstr "80000.00") = some 80000 ∧
    clean_price (Value.vstr "100,00") = some 100 ∧
    clean_price (Value.vstr "abc") = none := by
  refine ⟨?_, by decide, by decide, by decide, by decide, by decide⟩
  simp only [clean_price, claimPriceFirstComma, beforeFirst, afterLast,
    getLastD_pySplit, headD_pySplit]

/-- C5: the mileage parser keeps the text before the first `-` when one
occurs, strips non-digits, parses, absorbs failure into 0, always
returns a non-negative integer, and satisfies the claimed examples. -/
theorem C5_mileage_algorithm (v : Value) :
    clean_mileage_range v = claimMileage v ∧
    0 ≤ clean_mileage_range v ∧
    clean_mileage_range (Value.vstr "100 000 - 110 000") = 100000 ∧
    clean_mileage_range (Value.vstr "85,000 km") = 85000 ∧
    clean_mileage_range (Value.vstr "") = 0 := by
  refine ⟨?_, clean_mileage_range_nonneg v, by decide, by decide, by decide⟩
  simp only [clean_mileage_range, claimMileage, beforeFirst, headD_pySplit]

theorem fourAt_zero (s : List Char) :
    fourAt s 0 = ((s.take 4).length == 4 && (s.take 4).all pyIsDigit) := by
  simp [fourAt]

theorem fourAt_succ (c : Char) (rest : List Char) (i : Nat) :
    fourAt (c :: rest) (i + 1) = fourAt rest i := by
  simp [fourAt, List.drop_succ_cons]

theorem fourAt_nil (i : Nat) : fourAt [] i = false := by
  simp [fourAt]

theorem searchFour_none_iff :
    ∀ s : List Char, (searchFour s = none ↔ ∀ i, fourAt s i = false)
  | [] => by
    simp only [searchFour, true_iff]
    exact fun i => fourAt_nil i
  | c :: rest => by
    rw [searchFour]
    by_cases h0 : (((c :: rest).take 4).length == 4 && ((c :: rest).take 4).all pyIsDigit) = true
    · rw [if_pos h0]
      constructor
      · intro h
        cases h
      · intro hall
        have := hall 0
        rw [fourAt_zero, h0] at this
        cases this
    · rw [if_neg h0]
      rw [searchFour_none_iff rest]
      constructor
      · intro hall i
        cases i with
        | zero =>
          rw [fourAt_zero]
          simpa using h0
        | succ j =>
          rw [fourAt_succ]
          exact hall j
      · intro hall i
        have := hall (i + 1)
        rwa [fourAt_succ] at this

theorem searchFour_some :
    ∀ (s : List Char) (ds : List Char), searchFour s = some ds →
      ∃ i, fourAt s i = true ∧ (∀ j, j < i → fourAt s j = false) ∧
        ds = (s.drop i).take 4
  | [], ds => by
    intro h
    cases h
  | c :: rest, ds => by
    intro h
    rw [searchFour] at h
    by_cases h0 : (((c :: rest).take 4).length == 4 && ((c :: rest).take 4).all pyIsDigit) = true
    · rw [if_pos h0] at h
      cases h
      refine ⟨0, ?_, fun j hj => absurd hj (Nat.not_lt_zero j), by simp⟩
      rw [fourAt_zero]
      exact h0
    · rw [if_neg h0] at h
      rcases searchFour_some rest ds h with ⟨i, hi, hprev, hds⟩
      refine ⟨i + 1, by rwa [fourAt_succ], ?_, by simpa [List.drop_succ_cons] using hds⟩
      intro j hj
      cases j with
      | zero =>
        rw [fourAt_zero]
        simpa using h0
      | succ k =>
        rw [fourAt_succ]
        exact hprev k (by omega)

/-- C4 counterexample: on `"12345"` the parser returns 1234 (the first
window of four consecutive digits inside a five-digit run), while the
claimed algorithm, which wants a maximal contiguous run of exactly four
digits, has no such run and returns null. -/
theorem C4_counterexample :
    clean_year (Value.vstr "12345") = some 1234 ∧
    specYearRuns (Value.vstr "12345") = none ∧
    clean_year (Value.vstr "12345") ≠ specYearRuns (Value.vstr "12345") := by
  decide

/-- C4 (amended): the year parser returns the integer value of the
first four CONSECUTIVE decimal digits found scanning the lower-cased
trimmed text left to right (the window need not be a maximal digit
run), null when no four consecutive digits occur, with no bounds check;
and it satisfies the claimed examples. -/
theorem C4_year_first_window (v : Value) :
    (clean_year v = none ↔ ∀ i, fourAt (procText v) i = false) ∧
    (∀ n : Int, clean_year v = some n →
      ∃ i, fourAt (procText v) i = true ∧ (∀ j, j < i → fourAt (procText v) j = false) ∧
        n = (digitsToNat (((procText v).drop i).take 4) : Int)) ∧
    clean_year (Value.vstr "1980 ou plus ancien") = some 1980 ∧
    clean_year (Value.vstr "2019") = some 2019 ∧
    clean_year (Value.vstr "no digits here") = none := by
  refine ⟨?_, ?_, by decide, by decide, by decide⟩
  · unfold clean_year
    cases hS : searchFour (procText v) with
    | none =>
      simp only [true_iff]
      exact (searchFour_none_iff (procText v)).mp hS
    | some ds =>
      rcases searchFour_some (procText v) ds hS with ⟨i, hi, _, _⟩
      refine iff_of_false (by simp) (fun hall => ?_)
      rw [hall i] at hi
      cases hi
  · intro n hn
    unfold clean_year at hn
    cases hS : searchFour (procText v) with
    | none =>
      rw [hS] at hn
      cases hn
    | some ds =>
      rw [hS] at hn
      rcases searchFour_some (procText v) ds hS with ⟨i, hi, hprev, hds⟩
      cases hn
      exact ⟨i, hi, hprev, by rw [hds]⟩

/-- C4 witness: the amended characterization applied at the concrete
cell `"2019"`. -/
theorem C4_year_first_window_witness :
    ∃ i, fourAt (procText (Value.vstr "2019")) i = true ∧
      (∀ j, j < i → fourAt (procText (Value.vstr "2019")) j = false) ∧
      (2019 : Int) = (digitsToNat (((procText (Value.vstr "2019")).drop i).take 4) : Int) :=
  (C4_year_first_window (Value.vstr "2019")).2.1 2019 (by decide)

/-- C8: in this total embedding each per-cell parser returns normally
on every cell of any type: price and year yield an integer or the null
sentinel, and mileage always yields a (non-negative) integer, every
parse failure having been absorbed into the sentinel. -/
theorem C8_parsers_total (v : Value) :
    (clean_price v = none ∨ ∃ n, clean_price v = some n) ∧
    (clean_year v = none ∨ ∃ n, clean_year v = some n) ∧
    0 ≤ clean_mileage_range v := by
  refine ⟨?_, ?_, clean_mileage_range_nonneg v⟩
  · cases hcp : clean_price v with
    | none => exact Or.inl rfl
    | some n => exact Or.inr ⟨n, rfl⟩
  · cases hcy : clean_year v with
    | none => exact Or.inl rfl
    | some n => exact Or.inr ⟨n, rfl⟩

theorem procText_vint_nat (n : Nat) : procText (Value.vint (n : Int)) = natRepr n := by
  simp only [procText, pyStr, intRepr]
  rw [if_neg (Int.not_lt.mpr (Int.natCast_nonneg n)), Int.toNat_ofNat,
    pyLower_digits (natRepr_all_digit n), pyStrip_digits (natRepr_all_digit n)]

/-- C9: the price parser is the identity on already-canonical
non-negative integer prices: an integer cell `n` renders as its decimal
digits, no suffix or comma rule fires, and the digits parse back to
`n`, so a second normalization returns the same value. -/
theorem C9_price_idempotent (n : Nat) :
    clean_price (Value.vint (n : Int)) = some (n : Int) := by
  have hd := natRepr_all_digit n
  have h1 : endsWith (natRepr n) ['.', '0'] = false :=
    endsWith_false_of_digits hd '.' (by decide) (by decide)
  have h2 : endsWith (natRepr n) ['.', '0', '0'] = false :=
    endsWith_false_of_digits hd '.' (by decide) (by decide)
  have h3 : containsChar (natRepr n) ',' = false :=
    containsChar_false_of_digits hd (by decide)
  simp only [clean_price, procText_vint_nat, h1, h2, h3, Bool.false_eq_true,
    if_false, Bool.false_and]
  rw [List.filter_eq_self.mpr (fun c hc => hd c hc)]
  rw [pyInt_digits hd (natRepr_ne_nil n), digitsToNat_natRepr]

/-- C10: whenever the price parser returns a value it is non-negative,
because the minus sign is stripped as a non-digit before parsing; in
particular `"-100"` parses to the positive integer 100. -/
theorem C10_price_nonneg :
    (∀ (v : Value) (n : Int), clean_price v = some n → 0 ≤ n) ∧
    clean_price (Value.vstr "-100") = some 100 := by
  refine ⟨?_, by decide⟩
  intro v n h
  simp only [clean_price] at h
  exact pyInt_nonneg_of_digits (fun c hc => (List.mem_filter.mp hc).2) h

/-- C10 witness: the non-negativity fact applied at the concrete cell
`"-100"`. -/
theorem C10_price_nonneg_witness : 0 ≤ (100 : Int) :=
  C10_price_nonneg.1 (Value.vstr "-100") 100 C10_price_nonneg.2

/-- C2: under resolved, distinct role columns, a row of the (dropped)
input table appears in the final output exactly when its normalized
price is non-null and strictly between 5000 and 3000000 and its
normalized year is non-null (`keepRow` inspects nothing else, in
particular not the mileage cell nor the year's magnitude); hence every
output record has `5000 < price < 3000000` and a non-null year. -/
theorem C2_filter_iff (t : Table) (pc mc yc : String) (ip im iy : Nat)
    (hpc : pc = findCol (dropCols t).cols ["price", "prix"] "Price")
    (hmc : mc = findCol (dropCols t).cols ["mileage", "km"] "Mileage")
    (hyc : yc = findCol (dropCols t).cols ["year", "annee"] "Year")
    (hip : colIdx (dropCols t).cols pc = some ip)
    (him : colIdx (dropCols t).cols mc = some im)
    (hiy : colIdx (dropCols t).cols yc = some iy)
    (hyip : iy ≠ ip) (hyim : iy ≠ im) (hpim : ip ≠ im)
    (halign : ∀ r ∈ t.rows, r.length = t.cols.length) :
    ∃ t', run_cleaning t = some t' ∧
      t'.rows = ((dropCols t).rows.filter (keepRow ip iy)).map (transRow ip im iy) ∧
      ∀ r ∈ t'.rows, ∃ p : Int, getCell ip r = Value.vint p ∧ 5000 < p ∧ p < 3000000 ∧
        getCell iy r ≠ Value.vnan := by
  refine ⟨_, run_cleaning_eq t pc mc yc ip im iy hpc hmc hyc hip him hiy hyip hyim halign,
    rfl, ?_⟩
  intro r' hr'
  simp only [List.mem_map, List.mem_filter] at hr'
  rcases hr' with ⟨r, ⟨hrmem, hkeep⟩, rfl⟩
  have hlen : r.length = (dropCols t).cols.length := by
    simp only [dropCols, List.mem_map] at hrmem
    rcases hrmem with ⟨r0, hr0, rfl⟩
    exact dropColsRow_length (halign r0 hr0)
  have hipl : ip < r.length := by rw [hlen]; exact colIdx_lt_length hip
  have hiyl : iy < r.length := by rw [hlen]; exact colIdx_lt_length hiy
  simp only [keepRow, Bool.and_eq_true] at hkeep
  obtain ⟨hkp, hky⟩ := hkeep
  cases hP : clean_price (getCell ip r) with
  | none =>
    rw [hP] at hkp
    simp at hkp
  | some p =>
    rw [hP] at hkp
    rw [Bool.and_eq_true, decide_eq_true_eq, decide_eq_true_eq] at hkp
    cases hY : clean_year (getCell iy r) with
    | none =>
      rw [hY] at hky
      simp at hky
    | some y =>
      refine ⟨p, ?_, hkp.1, hkp.2, ?_⟩
      · simp only [transRow]
        rw [getCell_updateAt_ne _ _ (Ne.symm hyip), getCell_updateAt_ne _ _ hpim,
          getCell_updateAt_self _ hipl, hP]
        rfl
      · simp only [transRow]
        rw [getCell_updateAt_self _ (by rw [updateAt_length, updateAt_length]; exact hiyl),
          getCell_updateAt_ne _ _ hyim, getCell_updateAt_ne _ _ hyip, hY]
        simp [optToVal]

/-- C2 witness: the filter characterization applied to a concrete
single-row table with price "80 000 DH" and year "2015". -/
theorem C2_filter_iff_witness :
    ∃ t', run_cleaning ⟨["Price", "Mileage", "Year"],
        [[Value.vstr "80 000 DH", Value.vstr "5", Value.vstr "2015"]]⟩ = some t' ∧
      t'.rows = (((dropCols ⟨["Price", "Mileage", "Year"],
        [[Value.vstr "80 000 DH", Value.vstr "5", Value.vstr "2015"]]⟩).rows.filter
          (keepRow 0 2)).map (transRow 0 1 2)) ∧
      ∀ r ∈ t'.rows, ∃ p : Int, getCell 0 r = Value.vint p ∧ 5000 < p ∧ p < 3000000 ∧
        getCell 2 r ≠ Value.vnan :=
  C2_filter_iff ⟨["Price", "Mileage", "Year"],
      [[Value.vstr "80 000 DH", Value.vstr "5", Value.vstr "2015"]]⟩
    "Price" "Mileage" "Year" 0 1 2 rfl rfl rfl rfl rfl rfl
    (by decide) (by decide) (by decide) (by decide)

/-- C3: on the 3-row table with prices "80 000 DH", "3000",
"120000.00" and parseable years, the pipeline retains exactly the first
and third rows, in order, with canonical prices 80000 and 120000; the
"3000" row is dropped by the 5000 floor. -/
theorem C3_end_to_end (m1 m2 m3 y1 y2 y3 : Value) (n1 n2 n3 : Int)
    (h1 : clean_year y1 = some n1) (h2 : clean_year y2 = some n2)
    (h3 : clean_year y3 = some n3) :
    run_cleaning ⟨["Price", "Mileage", "Year"],
      [[Value.vstr "80 000 DH", m1, y1],
       [Value.vstr "3000", m2, y2],
       [Value.vstr "120000.00", m3, y3]]⟩ =
    some ⟨["price", "mileage_km", "year"],
      [[Value.vint 80000, Value.vint (clean_mileage_range m1), Value.vint n1],
       [Value.vint 120000, Value.vint (clean_mileage_range m3), Value.vint n3]]⟩ := by
  have h80 : clean_price (Value.vstr "80 000 DH") = some 80000 := by decide
  have h3k : clean_price (Value.vstr "3000") = some 3000 := by decide
  have h120 : clean_price (Value.vstr "120000.00") = some 120000 := by decide
  rw [run_cleaning_eq ⟨["Price", "Mileage", "Year"],
      [[Value.vstr "80 000 DH", m1, y1],
       [Value.vstr "3000", m2, y2],
       [Value.vstr "120000.00", m3, y3]]⟩
    "Price" "Mileage" "Year" 0 1 2 rfl rfl rfl rfl rfl rfl
    (by decide) (by decide)
    (by intro r hr; simp only [List.mem_cons, List.not_mem_nil, or_false] at hr
        rcases hr with rfl | rfl | rfl <;> rfl)]
  have hk1 : keepRow 0 2 [Value.vstr "80 000 DH", m1, y1] = true := by
    simp [keepRow, getCell, h80, h1]
  have hk2 : keepRow 0 2 [Value.vstr "3000", m2, y2] = false := by
    simp [keepRow, getCell, h3k]
  have hk3 : keepRow 0 2 [Value.vstr "120000.00", m3, y3] = true := by
    simp [keepRow, getCell, h120, h3]
  have ht1 : transRow 0 1 2 [Value.vstr "80 000 DH", m1, y1] =
      [Value.vint 80000, Value.vint (clean_mileage_range m1), Value.vint n1] := by
    simp [transRow, updateAt, optToVal, h80, h1]
  have ht3 : transRow 0 1 2 [Value.vstr "120000.00", m3, y3] =
      [Value.vint 120000, Value.vint (clean_mileage_range m3), Value.vint n3] := by
    simp [transRow, updateAt, optToVal, h120, h3]
  have hdr : ∀ a b c : Value, dropColsRow ["Price", "Mileage", "Year"] [a, b, c] = [a, b, c] :=
    fun a b c => rfl
  simp only [dropCols, List.map_cons, List.map_nil, hdr]
  simp [List.filter_cons, hk1, hk2, hk3, ht1, ht3, renameFn, dropNames]

/-- C3 witness: the end-to-end run at fully concrete year and mileage
cells. -/
theorem C3_end_to_end_witness :
    run_cleaning ⟨["Price", "Mileage", "Year"],
      [[Value.vstr "80 000 DH", Value.vstr "10 000 - 20 000", Value.vstr "2015"],
       [Value.vstr "3000", Value.vstr "5", Value.vstr "2016"],
       [Value.vstr "120000.00", Value.vstr "7 km", Value.vstr "2017"]]⟩ =
    some ⟨["price", "mileage_km", "year"],
      [[Value.vint 80000,
        Value.vint (clean_mileage_range (Value.vstr "10 000 - 20 000")), Value.vint 2015],
       [Value.vint 120000,
        Value.vint (clean_mileage_range (Value.vstr "7 km")), Value.vint 2017]]⟩ :=
  C3_end_to_end (Value.vstr "10 000 - 20 000") (Value.vstr "5") (Value.vstr "7 km")
    (Value.vstr "2015") (Value.vstr "2016") (Value.vstr "2017") 2015 2016 2017
    (by decide) (by decide) (by decide)

/-- C7 counterexample: a source column named "Color" is neither a role
column nor Sector/Location, yet it survives into the output table, so
the output does not consist of exactly the canonical columns. -/
theorem C7_counterexample :
    run_cleaning ⟨["Price", "Mileage", "Year", "Color"], []⟩ =
      some ⟨["price", "mileage_km", "year", "Color"], []⟩ ∧
    "Color" ∈ ["price", "mileage_km", "year", "Color"] ∧
    "Color" ∉ ["price", "mileage_km", "year", "brand", "model", "fuel_type"] := by
  refine ⟨by decide, by decide, by decide⟩

/-- C7 (amended): the output columns are the input columns minus the
literal drop list Sector/Location/sector/location, each renamed through
the role bindings and the fixed Brand/Model/Fuel entries; columns
matching none of these pass through unchanged rather than being
dropped. -/
theorem C7_output_columns (t t' : Table) (pc mc yc : String)
    (hpc : pc = findCol (dropCols t).cols ["price", "prix"] "Price")
    (hmc : mc = findCol (dropCols t).cols ["mileage", "km"] "Mileage")
    (hyc : yc = findCol (dropCols t).cols ["year", "annee"] "Year")
    (h : run_cleaning t = some t') :
    t'.cols = (t.cols.filter (fun c => !(dropNames.contains c))).map (renameFn pc mc yc) := by
  subst hpc hmc hyc
  simp only [run_cleaning] at h
  split at h
  · exact Option.noConfusion h
  · split at h
    · exact Option.noConfusion h
    · split at h
      · exact Option.noConfusion h
      · rw [Option.some.injEq] at h
        rw [← h]
        rfl

/-- C7 witness: the column contract applied to the concrete table of
the counterexample. -/
theorem C7_output_columns_witness :
    ["price", "mileage_km", "year", "Color"] =
      ((["Price", "Mileage", "Year", "Color"].filter
        (fun c => !(dropNames.contains c))).map (renameFn "Price" "Mileage" "Year")) :=
  C7_output_columns ⟨["Price", "Mileage", "Year", "Color"], []⟩
    ⟨["price", "mileage_km", "year", "Color"], []⟩ "Price" "Mileage" "Year"
    rfl rfl rfl (by decide)

/-- C6 witness: the role decomposition at a concrete column list in
which "Brand" matches no role, "Price" and "Kms" match by substring,
and Year falls back to its literal name. -/
theorem C6_role_resolution_witness :
    RoleSpec ["Brand", "Price", "Kms"] ["price", "prix"] "Price" ∧
    RoleSpec ["Brand", "Price", "Kms"] ["mileage", "km"] "Mileage" ∧
    RoleSpec ["Brand", "Price", "Kms"] ["year", "annee"] "Year" :=
  C6_role_resolution ["Brand", "Price", "Kms"]
